import Mathlib

/-!
Verification of the ReAct-style agent execution loop specified for this
repository.  The repository's own files are tutorial notebooks that wire
together an output parser, a tool-dispatching executor and a conversation
memory imported from a library; the executable logic those notebooks rely
on (the free-text and JSON output parsers, the tool registry and
dispatcher, the loop controller and the memory threading) is therefore
modelled here from the specification's own words, and the notebooks'
recorded transcripts are used as concrete test vectors.

Texts are embedded as `List Char`; string literals enter through
`String.data`.  All definitions are executable, so theorems can be
checked on concrete inputs by `rfl` or `decide`.
-/

/-- Whitespace test used for trimming, from the spec's
"no normalization beyond trimming whitespace". -/
def isSpaceChar (c : Char) : Bool :=
  c == ' ' || c == '\n' || c == '\t' || c == '\r'

/-- Drop leading whitespace. -/
def skipWs (l : List Char) : List Char :=
  l.dropWhile isSpaceChar

/-- Trim whitespace from both ends of a character list. -/
def trimChars (l : List Char) : List Char :=
  ((l.dropWhile isSpaceChar).reverse.dropWhile isSpaceChar).reverse

/-- Every character is whitespace. -/
def allWs (l : List Char) : Bool :=
  l.all isSpaceChar

/-- `true` when the head, if any, is whitespace (used to state that a
trimmed text has no leading or trailing whitespace). -/
def wsOpt : Option Char → Bool
  | none => false
  | some c => isSpaceChar c

/-- A trimmed text: neither its first nor its last character is whitespace. -/
def noLeadTrailWs (l : List Char) : Bool :=
  !(wsOpt l.head?) && !(wsOpt l.getLast?)

/-- Does `l` begin with the pattern `pat`? -/
def startsWithC (pat : List Char) (l : List Char) : Bool :=
  match pat, l with
  | [], _ => true
  | _ :: _, [] => false
  | p :: ps, c :: cs => p == c && startsWithC ps cs

/-- Scan for the first occurrence of `pat`; return the text after it. -/
def splitAtMarker (pat : List Char) : List Char → Option (List Char)
  | [] => none
  | c :: cs =>
    if startsWithC pat (c :: cs) then some ((c :: cs).drop pat.length)
    else splitAtMarker pat cs

/-- Does `pat` occur anywhere in `l`? -/
def hasMarker (pat : List Char) (l : List Char) : Bool :=
  (splitAtMarker pat l).isSome

/-- The text strictly before the first occurrence of `pat` (all of `l`
when `pat` does not occur). -/
def takeUntilMarker (pat : List Char) : List Char → List Char
  | [] => []
  | c :: cs =>
    if startsWithC pat (c :: cs) then []
    else c :: takeUntilMarker pat cs

/-- Characters before the first occurrence of `c`. -/
def takeUntil (c : Char) : List Char → List Char
  | [] => []
  | d :: ds => if d == c then [] else d :: takeUntil c ds

/-- Parsed output of the Action Proposer for one iteration: a tagged
variant, exactly one of a final answer or a tool call (spec §3). -/
inductive Decision where
  | finalAnswer (text : List Char)
  | toolCall (toolName toolInput : List Char)
deriving DecidableEq, Repr

/-- Parse failure of the output parser (spec §4.2): ambiguous input
holding both markers, input matching neither pattern, an action line
without an action-input line, or malformed JSON. -/
inductive ParseError where
  | ambiguous
  | noMatch
  | missingActionInput
  | badJson
deriving DecidableEq, Repr

deriving instance DecidableEq for Except

/-- Terminal marker of the free-text protocol (spec §4.1). -/
def finalMarker : List Char := "Final Answer:".data

/-- Action marker of the free-text protocol (spec §4.1). -/
def actionMarker : List Char := "Action:".data

/-- Action-input marker of the free-text protocol (spec §4.1). -/
def actionInputMarker : List Char := "Action Input:".data

/-- Modelled from the spec: the free-text output parser
(`ReActSingleInputOutputParser` in the notebooks; its code is not part of
this repository).  Per §4.2 it recognizes the terminal `Final Answer:`
marker and produces `FinalAnswer`, otherwise extracts tool name and tool
input verbatim (trimming whitespace only) from the `Action:` /
`Action Input:` lines, and fails with a `ParseError` when neither pattern
matches or when the text is ambiguous (contains both markers). -/
def parseText (raw : List Char) : Except ParseError Decision :=
  match splitAtMarker finalMarker raw, splitAtMarker actionMarker raw with
  | some _, some _ => .error .ambiguous
  | some fa, none => .ok (.finalAnswer (trimChars fa))
  | none, some act =>
    match splitAtMarker actionInputMarker act with
    | some inp => .ok (.toolCall (trimChars (takeUntil '\n' act)) (trimChars inp))
    | none => .error .missingActionInput
  | none, none => .error .noMatch

example :
    parseText "Thought: t\nFinal Answer: Paris".data =
      .ok (.finalAnswer "Paris".data) := by decide

example :
    parseText "Thought: t\nAction: Search\nAction Input: \"Leo DiCaprio girlfriend\"".data =
      .ok (.toolCall "Search".data "\"Leo DiCaprio girlfriend\"".data) := by decide

example :
    parseText "Final Answer: x\nAction: y\nAction Input: z".data =
      .error .ambiguous := by decide

example : parseText "no markers here".data = .error .noMatch := by decide

/-- A pattern that prefixes `s` still prefixes any extension of `s`. -/
theorem startsWithC_append (pat s b : List Char) (h : startsWithC pat s = true) :
    startsWithC pat (s ++ b) = true := by
  induction pat generalizing s with
  | nil => rfl
  | cons p ps ih =>
    cases s with
    | nil => simp [startsWithC] at h
    | cons c cs =>
      simp only [startsWithC, Bool.and_eq_true] at h
      simp only [List.cons_append, startsWithC, Bool.and_eq_true]
      exact ⟨h.1, ih cs h.2⟩

/-- When `s` is at least as long as the pattern, extending `s` does not
change whether the pattern prefixes it. -/
theorem startsWithC_of_le_append (pat s b : List Char) (h : pat.length ≤ s.length) :
    startsWithC pat (s ++ b) = startsWithC pat s := by
  induction pat generalizing s with
  | nil => rfl
  | cons p ps ih =>
    cases s with
    | nil => simp at h
    | cons c cs =>
      simp only [List.cons_append, startsWithC, List.append_eq]
      rw [ih cs (by simp only [List.length_cons] at h; omega)]

/-- Every pattern prefixes itself followed by anything. -/
theorem startsWithC_self (pat b : List Char) : startsWithC pat (pat ++ b) = true := by
  induction pat with
  | nil => rfl
  | cons p ps ih => simp [startsWithC, ih]

/-- If the first occurrence of `pat` in `a ++ pat` is the final one, then
scanning `a ++ pat ++ b` finds the marker there and returns `b`. -/
theorem splitAtMarker_extend (pat a b : List Char)
    (h : splitAtMarker pat (a ++ pat) = some []) :
    splitAtMarker pat (a ++ (pat ++ b)) = some b := by
  induction a with
  | nil =>
    simp only [List.nil_append] at h ⊢
    cases pat with
    | nil => simp [splitAtMarker] at h
    | cons p ps =>
      have hs : startsWithC (p :: ps) ((p :: ps) ++ b) = true := startsWithC_self _ _
      simp only [List.cons_append] at hs ⊢
      rw [splitAtMarker, if_pos hs]
      simp [List.length_cons, List.drop_succ_cons, List.drop_left]
  | cons c a' ih =>
    rw [List.cons_append] at h
    rw [List.cons_append]
    rw [splitAtMarker] at h
    rw [splitAtMarker]
    by_cases hs : startsWithC pat (c :: (a' ++ pat)) = true
    · rw [if_pos hs] at h
      have h2 : (c :: (a' ++ pat)).drop pat.length = [] := Option.some.inj h
      rw [List.drop_eq_nil_iff] at h2
      simp only [List.length_cons, List.length_append] at h2
      omega
    · rw [if_neg hs] at h
      have hs2 : ¬ startsWithC pat (c :: (a' ++ (pat ++ b))) = true := by
        intro hcontra
        rw [show c :: (a' ++ (pat ++ b)) = (c :: (a' ++ pat)) ++ b by simp] at hcontra
        rw [startsWithC_of_le_append pat _ b
          (by simp only [List.length_cons, List.length_append]; omega)] at hcontra
        exact hs hcontra
      rw [if_neg hs2]
      exact ih h

/-- `takeUntilMarker` returns a prefix of its input. -/
theorem takeUntilMarker_prefix (pat l : List Char) :
    ∃ u, takeUntilMarker pat l ++ u = l := by
  induction l with
  | nil => exact ⟨[], rfl⟩
  | cons c cs ih =>
    rw [takeUntilMarker]
    by_cases hs : startsWithC pat (c :: cs) = true
    · rw [if_pos hs]; exact ⟨c :: cs, rfl⟩
    · rw [if_neg hs]
      obtain ⟨u, hu⟩ := ih
      exact ⟨u, by rw [List.cons_append, hu]⟩

/-- The text before the first occurrence of a pattern does not contain
the pattern. -/
theorem splitAtMarker_takeUntilMarker (pat l : List Char) :
    splitAtMarker pat (takeUntilMarker pat l) = none := by
  induction l with
  | nil => rfl
  | cons c cs ih =>
    rw [takeUntilMarker]
    by_cases hs : startsWithC pat (c :: cs) = true
    · rw [if_pos hs]; rfl
    · rw [if_neg hs]
      rw [splitAtMarker]
      have hs2 : ¬ startsWithC pat (c :: takeUntilMarker pat cs) = true := by
        intro hcontra
        obtain ⟨u, hu⟩ := takeUntilMarker_prefix pat cs
        have hext := startsWithC_append pat (c :: takeUntilMarker pat cs) u hcontra
        rw [List.cons_append, hu] at hext
        exact hs hext
      rw [if_neg hs2]
      exact ih

/-- `takeUntil` recovers the text before an appended separator. -/
theorem takeUntil_append (c : Char) (n rest : List Char) (h : c ∉ n) :
    takeUntil c (n ++ c :: rest) = n := by
  induction n with
  | nil => simp [takeUntil]
  | cons d ds ih =>
    rw [List.cons_append, takeUntil]
    have hd : (d == c) = false := by
      simp only [beq_eq_false_iff_ne, ne_eq]
      intro he
      exact h (by rw [he]; exact List.mem_cons_self ..)
    rw [if_neg (by simp [hd])]
    rw [ih (fun hm => h (List.mem_cons_of_mem _ hm))]

/-- The head of a whitespace-trimmed-from-the-left list is not whitespace. -/
theorem head?_dropWhile_ws (l : List Char) :
    wsOpt (l.dropWhile isSpaceChar).head? = false := by
  have h := List.head?_dropWhile_not isSpaceChar l
  cases hh : (l.dropWhile isSpaceChar).head? with
  | none => rfl
  | some c => rw [hh] at h; simpa [wsOpt] using h

/-- Dropping a prefix preserves the last element (or empties the list). -/
theorem getLast?_dropWhile_ws (l : List Char) :
    l.dropWhile isSpaceChar = [] ∨
      (l.dropWhile isSpaceChar).getLast? = l.getLast? := by
  induction l with
  | nil => left; rfl
  | cons c cs ih =>
    rw [List.dropWhile_cons]
    by_cases hc : isSpaceChar c = true
    · rw [if_pos hc]
      by_cases hnil : cs.dropWhile isSpaceChar = []
      · left; exact hnil
      · right
        rcases ih with h | h
        · exact absurd h hnil
        · rw [h]
          cases cs with
          | nil => simp at hnil
          | cons d ds => simp [List.getLast?_cons_cons]
    · rw [if_neg hc]; right; rfl

/-- Trimming yields a text with no leading or trailing whitespace. -/
theorem noLeadTrailWs_trim (l : List Char) : noLeadTrailWs (trimChars l) = true := by
  have h1 : wsOpt (trimChars l).getLast? = false := by
    rw [trimChars, List.getLast?_reverse]
    exact head?_dropWhile_ws _
  have h2 : wsOpt (trimChars l).head? = false := by
    rw [trimChars, List.head?_reverse]
    rcases getLast?_dropWhile_ws ((l.dropWhile isSpaceChar).reverse) with h | h
    · rw [h]; rfl
    · rw [h, List.getLast?_reverse]
      exact head?_dropWhile_ws l
  simp [noLeadTrailWs, h1, h2]

/-- Modelled from the spec: a Tool capability record (spec §3) — a unique
name, a description shown to the model, and an invoke function mapping
input text to output text that may fail with an error message.  The
registry and dispatcher code the notebooks import is not part of this
repository. -/
structure Tool where
  name : List Char
  description : List Char
  invoke : List Char → Except (List Char) (List Char)

/-- Dispatch failure taxonomy (spec §4.3 and §7): an unregistered tool
name, or a tool invocation that itself failed. -/
inductive DispatchError where
  | unknownTool (name : List Char)
  | toolFailed (name msg : List Char)
deriving DecidableEq, Repr

/-- Case-sensitive exact lookup in the tool registry (spec §4.3). -/
def findTool (ts : List Tool) (n : List Char) : Option Tool :=
  ts.find? (fun t => t.name == n)

/-- Modelled from the spec: `dispatch(tool_name, tool_input)` (spec §4.3).
Looks the name up with case-sensitive exact match; fails with
`UnknownToolError` when no match exists; a failing tool invocation is
reported as `ToolExecutionError`, and the chosen tool's `invoke` is
applied to the tool input unmodified. -/
def dispatch (ts : List Tool) (n i : List Char) : Except DispatchError (List Char) :=
  match findTool ts n with
  | none => .error (.unknownTool n)
  | some t => (t.invoke i).mapError (.toolFailed n)

/-- C2: for every well-formed free-text model output containing the line
`Final Answer: X` (the final-answer marker first occurs at the marked
position and no action marker occurs anywhere), the free-text parser
produces `FinalAnswer` whose text is exactly `X`, with no leading or
trailing whitespace in `X`. -/
theorem final_answer_text_parse (th x : List Char)
    (hclean : splitAtMarker finalMarker (th ++ finalMarker) = some [])
    (hnoact : splitAtMarker actionMarker (th ++ (finalMarker ++ (' ' :: x))) = none)
    (hx : trimChars x = x) :
    parseText (th ++ (finalMarker ++ (' ' :: x))) = .ok (.finalAnswer x) ∧
      noLeadTrailWs x = true := by
  have hfa : splitAtMarker finalMarker (th ++ (finalMarker ++ (' ' :: x))) =
      some (' ' :: x) := splitAtMarker_extend _ _ _ hclean
  constructor
  · simp only [parseText, hfa, hnoact]
    rw [show trimChars (' ' :: x) = trimChars x from rfl, hx]
  · rw [← hx]
    exact noLeadTrailWs_trim x

/-- Witness for C2: the conversational notebook's final-answer output. -/
theorem final_answer_text_parse_witness :
    parseText ("Thought: Do I need to use a tool? No\n".data ++
        (finalMarker ++ (' ' :: "Your name is Bob.".data))) =
      .ok (.finalAnswer "Your name is Bob.".data) ∧
      noLeadTrailWs "Your name is Bob.".data = true :=
  final_answer_text_parse "Thought: Do I need to use a tool? No\n".data
    "Your name is Bob.".data (by decide) (by decide) (by decide)

/-- Scan a JSON string body up to the closing quote; fails on an
unterminated string. -/
def scanString : List Char → Option (List Char × List Char)
  | [] => none
  | c :: rest =>
    if c == '"' then some ([], rest)
    else (scanString rest).map (fun p => (c :: p.1, p.2))

/-- Skip whitespace and consume one expected character. -/
def expectCh (c : Char) (l : List Char) : Option (List Char) :=
  match skipWs l with
  | c' :: rest => if c' == c then some rest else none
  | [] => none

/-- Skip whitespace and consume a JSON string literal. -/
def parseStrLit (l : List Char) : Option (List Char × List Char) :=
  match skipWs l with
  | '"' :: rest => scanString rest
  | _ => none

/-- The first key of the structured protocol's JSON object (spec §4.1). -/
def actionKey : List Char := "action".data

/-- The second key of the structured protocol's JSON object (spec §4.1). -/
def actionInputKey : List Char := "action_input".data

/-- The terminal action name of the structured protocol (spec §4.2). -/
def finalAnswerName : List Char := "Final Answer".data

/-- The decision the two JSON fields determine (spec §4.2): the terminal
name yields `FinalAnswer`, anything else a `ToolCall` carried verbatim. -/
def decisionOf (a x : List Char) : Decision :=
  if a = finalAnswerName then .finalAnswer x else .toolCall a x

/-- Modelled from the spec: the JSON output parser
(`JSONAgentOutputParser` / `ReActJsonSingleInputOutputParser` in the
notebooks; their code is not part of this repository).  Per §4.1/§4.2 it
accepts a single JSON object `{"action": A, "action_input": X}` and maps
it through `decisionOf`; anything else is malformed and fails. -/
def jsonBody (raw : List Char) : Option Decision :=
  (expectCh '{' raw).bind fun r1 =>
  (parseStrLit r1).bind fun q1 =>
  if q1.1 = actionKey then
    (expectCh ':' q1.2).bind fun r3 =>
    (parseStrLit r3).bind fun q2 =>
    (expectCh ',' q2.2).bind fun r5 =>
    (parseStrLit r5).bind fun q3 =>
    if q3.1 = actionInputKey then
      (expectCh ':' q3.2).bind fun r7 =>
      (parseStrLit r7).bind fun q4 =>
      (expectCh '}' q4.2).bind fun r9 =>
      if skipWs r9 = [] then some (decisionOf q2.1 q4.1) else none
    else none
  else none

/-- Modelled from the spec: `parse(raw_text) -> Decision` for the
structured (JSON) protocol; malformed JSON is a `ParseError`. -/
def jsonParse (raw : List Char) : Except ParseError Decision :=
  match jsonBody raw with
  | some d => .ok d
  | none => .error .badJson

example :
    jsonParse "\x7b\n    \"action\": \"Final Answer\",\n    \"action_input\": \"Hello Bob, how can I assist you today?\"\n\x7d".data =
      .ok (.finalAnswer "Hello Bob, how can I assist you today?".data) := by decide

example :
    jsonParse "\x7b\n    \"action\": \"Current Search\",\n    \"action_input\": \"movies showing on 9/21/2023\"\n\x7d".data =
      .ok (.toolCall "Current Search".data "movies showing on 9/21/2023".data) := by
  decide

example : jsonParse "Final Answer: not json".data = .error .badJson := by decide

/-- A JSON string body free of quotes scans to itself. -/
theorem scanString_append (s r : List Char) (h : '"' ∉ s) :
    scanString (s ++ '"' :: r) = some (s, r) := by
  induction s with
  | nil => simp [scanString]
  | cons c cs ih =>
    rw [List.cons_append, scanString]
    have hc : (c == '"') = false := by
      simp only [beq_eq_false_iff_ne, ne_eq]
      intro he
      exact h (by rw [he]; exact List.mem_cons_self ..)
    rw [if_neg (by simp [hc])]
    rw [ih (fun hm => h (List.mem_cons_of_mem _ hm))]
    rfl

/-- The canonical rendering of the structured protocol's JSON object,
`{"action": A, "action_input": X}` (spec §4.1). -/
def mkJsonOf (a x : List Char) : List Char :=
  '{' :: '"' :: (actionKey ++ ('"' :: ':' :: ' ' :: '"' :: (a ++ ('"' :: ',' :: ' ' :: '"' ::
    (actionInputKey ++ ('"' :: ':' :: ' ' :: '"' :: (x ++ ('"' :: '}' :: []))))))))

/-- The JSON parser accepts every canonical action object and returns the
decision its two fields determine. -/
theorem jsonBody_mkJsonOf (a x : List Char) (ha : '"' ∉ a) (hx : '"' ∉ x) :
    jsonBody (mkJsonOf a x) = some (decisionOf a x) := by
  have hkey1 : ∀ r : List Char, scanString (actionKey ++ '"' :: r) = some (actionKey, r) :=
    fun r => scanString_append _ _ (by decide)
  have hkey2 : ∀ r : List Char,
      scanString (actionInputKey ++ '"' :: r) = some (actionInputKey, r) :=
    fun r => scanString_append _ _ (by decide)
  have hA : ∀ r : List Char, scanString (a ++ '"' :: r) = some (a, r) :=
    fun r => scanString_append _ _ ha
  have hX : ∀ r : List Char, scanString (x ++ '"' :: r) = some (x, r) :=
    fun r => scanString_append _ _ hx
  have e1 : ∀ t : List Char, expectCh '{' ('{' :: t) = some t := fun t => rfl
  have e2 : ∀ t : List Char, expectCh ':' (':' :: t) = some t := fun t => rfl
  have e3 : ∀ t : List Char, expectCh ',' (',' :: t) = some t := fun t => rfl
  have e4 : ∀ t : List Char, expectCh '}' ('}' :: t) = some t := fun t => rfl
  have pl1 : ∀ t : List Char, parseStrLit ('"' :: t) = scanString t := fun t => rfl
  have pl2 : ∀ t : List Char, parseStrLit (' ' :: '"' :: t) = scanString t := fun t => rfl
  have sw0 : skipWs ([] : List Char) = [] := rfl
  simp only [mkJsonOf, jsonBody, e1, e2, e3, e4, pl1, pl2, hkey1, hkey2, hA, hX,
    Option.some_bind, sw0, if_pos rfl, if_true]

/-- C3: for every well-formed JSON model output of the form
`{"action": "Final Answer", "action_input": X}`, the JSON output parser
produces `FinalAnswer{text=X}`. -/
theorem json_final_answer_parse (x : List Char) (hx : '"' ∉ x) :
    jsonParse (mkJsonOf finalAnswerName x) = .ok (.finalAnswer x) := by
  have hb := jsonBody_mkJsonOf finalAnswerName x (by decide) hx
  simp only [jsonParse, hb, decisionOf, if_pos rfl, if_true]

/-- Witness for C3: the conversational notebook's JSON final answer. -/
theorem json_final_answer_parse_witness :
    jsonParse (mkJsonOf finalAnswerName "Hello Bob, how can I assist you today?".data) =
      .ok (.finalAnswer "Hello Bob, how can I assist you today?".data) :=
  json_final_answer_parse "Hello Bob, how can I assist you today?".data (by decide)

/-- C4: a well-formed free-text model output naming a tool parses to a
`ToolCall` carrying the tool name and tool input verbatim (trimmed of
surrounding whitespace only), and dispatching that `ToolCall` on a
registry in which the name is registered applies exactly the registered
tool's `invoke` function to the unmodified tool input. -/
theorem tool_dispatch_round_trip (th n i : List Char) (ts : List Tool) (t : Tool)
    (hcleanA : splitAtMarker actionMarker (th ++ actionMarker) = some [])
    (hcleanAI : splitAtMarker actionInputMarker ((n ++ ['\n']) ++ actionInputMarker) = some [])
    (hnofinal : splitAtMarker finalMarker
      (th ++ (actionMarker ++ (n ++ ('\n' :: (actionInputMarker ++ i))))) = none)
    (hn : '\n' ∉ n)
    (hreg : findTool ts (trimChars n) = some t) :
    parseText (th ++ (actionMarker ++ (n ++ ('\n' :: (actionInputMarker ++ i))))) =
      .ok (.toolCall (trimChars n) (trimChars i)) ∧
    dispatch ts (trimChars n) (trimChars i) =
      (t.invoke (trimChars i)).mapError (DispatchError.toolFailed (trimChars n)) := by
  have hact : splitAtMarker actionMarker
      (th ++ (actionMarker ++ (n ++ ('\n' :: (actionInputMarker ++ i))))) =
      some (n ++ ('\n' :: (actionInputMarker ++ i))) :=
    splitAtMarker_extend _ _ _ hcleanA
  have hinp : splitAtMarker actionInputMarker (n ++ ('\n' :: (actionInputMarker ++ i))) =
      some i := by
    have hext := splitAtMarker_extend actionInputMarker (n ++ ['\n']) i hcleanAI
    simpa [List.append_assoc] using hext
  have htake : takeUntil '\n' (n ++ ('\n' :: (actionInputMarker ++ i))) = n :=
    takeUntil_append '\n' n (actionInputMarker ++ i) hn
  constructor
  · simp only [parseText, hnofinal, hact, hinp, htake]
  · simp only [dispatch, hreg]

/-- The search tool of the ReAct notebook, with a stubbed invoke
function standing in for the external search service. -/
def searchTool : Tool :=
  { name := "Search".data
    description := "useful for when you need to answer questions".data
    invoke := fun q => .ok ("results for ".data ++ q) }

/-- Witness for C4: the ReAct notebook's first action output dispatched
against a registry holding the Search tool. -/
theorem tool_dispatch_round_trip_witness :
    parseText ("Thought: look it up\n".data ++ (actionMarker ++ (" Search".data ++
        ('\n' :: (actionInputMarker ++ " \"Leo DiCaprio girlfriend\"".data))))) =
      .ok (.toolCall (trimChars " Search".data)
        (trimChars " \"Leo DiCaprio girlfriend\"".data)) ∧
    dispatch [searchTool] (trimChars " Search".data)
        (trimChars " \"Leo DiCaprio girlfriend\"".data) =
      (searchTool.invoke (trimChars " \"Leo DiCaprio girlfriend\"".data)).mapError
        (DispatchError.toolFailed (trimChars " Search".data)) :=
  tool_dispatch_round_trip "Thought: look it up\n".data " Search".data
    " \"Leo DiCaprio girlfriend\"".data [searchTool] searchTool
    (by decide) (by decide) (by decide) (by decide) rfl

/-- One iteration's record (spec §3): action name (a tool name or
"final"), the action input, the observation produced by the dispatcher
for tool steps, and the final-answer flag.  The optional free-text
thought field plays no role in the loop and is not modelled. -/
structure Step where
  action : List Char
  actionInput : List Char
  observation : Option (List Char)
  isFinal : Bool
deriving DecidableEq, Repr

/-- Loop Controller states (spec §4.4): `RUNNING`, `FINISHED`,
`ABORTED`. -/
inductive AgentState where
  | running
  | finished
  | aborted
deriving DecidableEq, Repr

/-- Action Proposer (spec §4.1): raw model text produced from the user
input, the conversation history and the scratchpad of prior steps.  The
external model call is abstracted as a pure function. -/
abbrev Proposer := List Char → List (List Char × List Char) → List Step → List Char

/-- The stop sequence the notebooks bind on the model:
`llm.bind(stop=["\nObservation"])`. -/
def observationStop : List Char := "\nObservation".data

/-- Modelled from the spec: the provider contract
`complete(prompt_text, stop_sequences) -> text` (spec §6) truncates the
completion at the first occurrence of a stop sequence, so the returned
text ends strictly before it. -/
def withStop (stop text : List Char) : List Char :=
  takeUntilMarker stop text

/-- The raw text handed to the output parser each iteration: the
proposer's completion truncated at the bound stop sequence. -/
def modelOutput (p : Proposer) (input : List Char)
    (hist : List (List Char × List Char)) (steps : List Step) : List Char :=
  withStop observationStop (p input hist steps)

/-- Loop Controller configuration: parser strategy selected at
construction time (spec §9), the immutable tool registry, the proposer,
and `max_iterations` (spec §6 `configure`). -/
structure AgentConfig where
  parse : List Char → Except ParseError Decision
  tools : List Tool
  propose : Proposer
  maxIterations : Nat

/-- State of one `run`: the appended steps, the iteration counter,
counters of model calls and tool dispatches, the machine state and the
output text. -/
structure LoopState where
  steps : List Step
  iterations : Nat
  modelCalls : Nat
  dispatches : Nat
  status : AgentState
  output : List Char
deriving DecidableEq, Repr

/-- RunResult (spec §3): output text plus the ordered steps. -/
structure RunResult where
  output : List Char
  steps : List Step
deriving DecidableEq, Repr

/-- The RunResult view of a loop state. -/
def runResult (s : LoopState) : RunResult :=
  { output := s.output, steps := s.steps }

/-- The designated output of an iteration-limit abort (spec §4.4). -/
def iterationLimitMsg : List Char := "stopped: iteration limit".data

/-- Abort explanation for an unparsable model output, surfaced as the
output text (spec §4.4). -/
def parseAbortMsg (e : ParseError) : List Char :=
  "stopped: could not parse model output".data ++
    (match e with
     | .ambiguous => " (ambiguous)".data
     | .noMatch => " (no pattern matched)".data
     | .missingActionInput => " (missing action input)".data
     | .badJson => " (malformed JSON)".data)

/-- Observation describing an invalid tool choice (spec §4.3). -/
def unknownToolMsg (n : List Char) : List Char :=
  "invalid tool: ".data ++ n

/-- Observation carrying a failed tool invocation's error message
(spec §4.3). -/
def toolFailedMsg (msg : List Char) : List Char :=
  "tool error: ".data ++ msg

/-- Convert a dispatch outcome into the observation text fed back to the
model: the tool output, or a recovery message (spec §4.3, §7). -/
def obsOf : Except DispatchError (List Char) → List Char
  | .ok o => o
  | .error (.unknownTool n) => unknownToolMsg n
  | .error (.toolFailed _ msg) => toolFailedMsg msg

/-- The observation produced by dispatching a tool call. -/
def obsFor (ts : List Tool) (n i : List Char) : List Char :=
  obsOf (dispatch ts n i)

/-- The step recorded for a dispatched tool call. -/
def toolStep (ts : List Tool) (n i : List Char) : Step :=
  { action := n, actionInput := i, observation := some (obsFor ts n i), isFinal := false }

/-- The step recorded for a final answer. -/
def finalStep (t : List Char) : Step :=
  { action := "final".data, actionInput := t, observation := none, isFinal := true }

/-- Modelled from the spec: one transition of the Loop Controller state
machine (spec §4.4; the executor code the notebooks import is not part
of this repository).  Terminal states have no outgoing transition.  A
running state first checks the iteration bound (the loop continues only
while the counter is below `max_iterations`, so a run with
`max_iterations = 1` performs exactly one dispatch, per §8), then makes
one model call, parses the truncated output, and either finishes on
`FinalAnswer`, dispatches and records an observation step on `ToolCall`,
or aborts with an explanation on a `ParseError` (the retry budget is
taken as zero, aborting being one of the two behaviours §4.2 allows). -/
def stepLoop (cfg : AgentConfig) (input : List Char)
    (hist : List (List Char × List Char)) (s : LoopState) : LoopState :=
  if s.status = AgentState.running then
    if cfg.maxIterations ≤ s.iterations then
      { s with status := .aborted, output := iterationLimitMsg }
    else
      match cfg.parse (modelOutput cfg.propose input hist s.steps) with
      | .error e =>
        { s with modelCalls := s.modelCalls + 1, status := .aborted,
                 output := parseAbortMsg e }
      | .ok (.finalAnswer t) =>
        { s with modelCalls := s.modelCalls + 1, status := .finished,
                 output := t, steps := s.steps ++ [finalStep t] }
      | .ok (.toolCall n i) =>
        { s with modelCalls := s.modelCalls + 1,
                 steps := s.steps ++ [toolStep cfg.tools n i],
                 iterations := s.iterations + 1,
                 dispatches := s.dispatches + 1 }
  else s

/-- Iterate the transition function a given number of times. -/
def runAux (cfg : AgentConfig) (input : List Char)
    (hist : List (List Char × List Char)) : Nat → LoopState → LoopState
  | 0, s => s
  | n + 1, s => runAux cfg input hist n (stepLoop cfg input hist s)

/-- One unfolding of `runAux`. -/
theorem runAux_succ (cfg : AgentConfig) (input : List Char)
    (hist : List (List Char × List Char)) (n : Nat) (s : LoopState) :
    runAux cfg input hist (n + 1) s =
      runAux cfg input hist n (stepLoop cfg input hist s) := rfl

/-- A single iteration of `runAux`. -/
theorem runAux_one (cfg : AgentConfig) (input : List Char)
    (hist : List (List Char × List Char)) (s : LoopState) :
    runAux cfg input hist 1 s = stepLoop cfg input hist s := rfl

/-- The state a fresh `run` starts from (spec §4.4, Initial). -/
def initState : LoopState :=
  { steps := [], iterations := 0, modelCalls := 0, dispatches := 0,
    status := .running, output := [] }

/-- Modelled from the spec: `run(input, history)` of the Loop
Controller.  `maxIterations + 1` transitions always reach a terminal
state, because every running transition either terminates the machine or
increments the iteration counter towards the bound. -/
def run (cfg : AgentConfig) (input : List Char)
    (hist : List (List Char × List Char)) : LoopState :=
  runAux cfg input hist (cfg.maxIterations + 1) initState

/-- C7: the Loop Controller state machine has no transition out of the
terminal states `FINISHED` and `ABORTED`: a non-running state is a fixed
point of the transition function, and iterating the loop from it for any
amount of fuel appends no step, dispatches no tool and makes no model
call — the state, all its counters included, is unchanged. -/
theorem terminal_states_absorb (cfg : AgentConfig) (input : List Char)
    (hist : List (List Char × List Char)) (s : LoopState)
    (h : s.status ≠ AgentState.running) :
    stepLoop cfg input hist s = s ∧
      ∀ fuel, runAux cfg input hist fuel s = s := by
  have hstep : stepLoop cfg input hist s = s := by
    simp only [stepLoop, if_neg h]
  refine ⟨hstep, ?_⟩
  intro fuel
  induction fuel with
  | zero => rfl
  | succ n ih => rw [runAux_succ, hstep]; exact ih

/-- C9: the raw text handed to the output parser never contains the
stop sequence `"\nObservation"` — the model is bound with
`stop=["\nObservation"]`, so every parser input is truncated strictly
before any observation line. -/
theorem stop_sequence_truncates (p : Proposer) (input : List Char)
    (hist : List (List Char × List Char)) (steps : List Step) :
    hasMarker observationStop (modelOutput p input hist steps) = false := by
  simp only [modelOutput, withStop, hasMarker, splitAtMarker_takeUntilMarker,
    Option.isSome_none]

/-- C1: a run configured with `max_iterations = 1` whose input requires
two tool calls (the first two proposals both parse to tool calls naming
registered tools) terminates in state `ABORTED` after exactly one tool
dispatch, and its partial RunResult carries the one recorded step and the
designated "stopped: iteration limit" output; `run` is a total function,
so no exception reaches the caller. -/
theorem iteration_limit_aborts (cfg : AgentConfig) (input : List Char)
    (hist : List (List Char × List Char)) (n1 i1 n2 i2 : List Char)
    (hmax : cfg.maxIterations = 1)
    (h1 : cfg.parse (modelOutput cfg.propose input hist []) = .ok (.toolCall n1 i1))
    (hreg1 : (findTool cfg.tools n1).isSome = true)
    (h2 : cfg.parse (modelOutput cfg.propose input hist [toolStep cfg.tools n1 i1]) =
      .ok (.toolCall n2 i2))
    (hreg2 : (findTool cfg.tools n2).isSome = true) :
    (run cfg input hist).status = .aborted ∧
    (run cfg input hist).dispatches = 1 ∧
    (runResult (run cfg input hist)).output = iterationLimitMsg ∧
    (runResult (run cfg input hist)).steps = [toolStep cfg.tools n1 i1] := by
  have e1 : stepLoop cfg input hist initState =
      { steps := [toolStep cfg.tools n1 i1], iterations := 1, modelCalls := 1,
        dispatches := 1, status := .running, output := [] } := by
    simp only [stepLoop, initState, if_true]
    rw [if_neg (show ¬ cfg.maxIterations ≤ 0 by omega), h1]
    rfl
  have e2 : stepLoop cfg input hist
      { steps := [toolStep cfg.tools n1 i1], iterations := 1, modelCalls := 1,
        dispatches := 1, status := .running, output := [] } =
      { steps := [toolStep cfg.tools n1 i1], iterations := 1, modelCalls := 1,
        dispatches := 1, status := .aborted, output := iterationLimitMsg } := by
    simp only [stepLoop, if_true]
    rw [if_pos (show cfg.maxIterations ≤ 1 by omega)]
  have hrun : run cfg input hist =
      { steps := [toolStep cfg.tools n1 i1], iterations := 1, modelCalls := 1,
        dispatches := 1, status := .aborted, output := iterationLimitMsg } := by
    simp only [run, hmax]
    rw [runAux_succ, e1, runAux_one, e2]
  rw [hrun]
  exact ⟨rfl, rfl, rfl, rfl⟩

/-- A proposer that keeps asking for tool calls: the modelled input needs
two Search calls before any answer could be produced. -/
def twoToolProposer : Proposer := fun _ _ steps =>
  if steps.length = 0 then
    "Thought: find it\nAction: Search\nAction Input: first query".data
  else
    "Thought: again\nAction: Search\nAction Input: second query".data

/-- An executor limited to a single iteration. -/
def limitCfg : AgentConfig :=
  { parse := parseText, tools := [searchTool], propose := twoToolProposer,
    maxIterations := 1 }

/-- Witness for C1: the single-iteration executor on a two-tool-call
input aborts with the designated output after one dispatch. -/
theorem iteration_limit_aborts_witness :
    (run limitCfg "two step question".data []).status = .aborted ∧
    (run limitCfg "two step question".data []).dispatches = 1 ∧
    (runResult (run limitCfg "two step question".data [])).output = iterationLimitMsg ∧
    (runResult (run limitCfg "two step question".data [])).steps =
      [toolStep limitCfg.tools "Search".data "first query".data] :=
  iteration_limit_aborts limitCfg "two step question".data []
    "Search".data "first query".data "Search".data "second query".data
    rfl (by decide) (by decide) (by decide) (by decide)

/-- C5: dispatching a tool name that is not in the registry never raises
to the caller: the transition converts the `UnknownToolError` into an
observation describing the invalid tool choice, appends it as an
observation step, and leaves the machine `RUNNING`, so the loop continues
to the next iteration. -/
theorem unknown_tool_recovers (cfg : AgentConfig) (input : List Char)
    (hist : List (List Char × List Char)) (s : LoopState) (n i : List Char)
    (hrun : s.status = AgentState.running)
    (hit : s.iterations < cfg.maxIterations)
    (hp : cfg.parse (modelOutput cfg.propose input hist s.steps) = .ok (.toolCall n i))
    (hu : findTool cfg.tools n = none) :
    stepLoop cfg input hist s =
      { s with modelCalls := s.modelCalls + 1,
               steps := s.steps ++
                 [{ action := n, actionInput := i,
                    observation := some (unknownToolMsg n), isFinal := false }],
               iterations := s.iterations + 1,
               dispatches := s.dispatches + 1 } ∧
    (stepLoop cfg input hist s).status = AgentState.running := by
  have hobs : toolStep cfg.tools n i =
      { action := n, actionInput := i,
        observation := some (unknownToolMsg n), isFinal := false } := by
    simp [toolStep, obsFor, dispatch, hu, obsOf]
  have hmain : stepLoop cfg input hist s =
      { s with modelCalls := s.modelCalls + 1,
               steps := s.steps ++
                 [{ action := n, actionInput := i,
                    observation := some (unknownToolMsg n), isFinal := false }],
               iterations := s.iterations + 1,
               dispatches := s.dispatches + 1 } := by
    simp only [stepLoop]
    rw [if_pos hrun, if_neg (by omega), hp]
    simp only [hobs]
  refine ⟨hmain, ?_⟩
  rw [hmain]
  exact hrun

/-- A proposer that names a tool absent from the registry. -/
def unknownProposer : Proposer := fun _ _ _ =>
  "Thought: try\nAction: Wikipedia\nAction Input: Leo DiCaprio".data

/-- An executor whose registry holds only the Search tool. -/
def unknownCfg : AgentConfig :=
  { parse := parseText, tools := [searchTool], propose := unknownProposer,
    maxIterations := 3 }

/-- Witness for C5: dispatching the unregistered `Wikipedia` tool yields
an invalid-tool observation step and the loop keeps running. -/
theorem unknown_tool_recovers_witness :
    stepLoop unknownCfg "question".data [] initState =
      { initState with
          modelCalls := initState.modelCalls + 1,
          steps := initState.steps ++
            [{ action := "Wikipedia".data, actionInput := "Leo DiCaprio".data,
               observation := some (unknownToolMsg "Wikipedia".data),
               isFinal := false }],
          iterations := initState.iterations + 1,
          dispatches := initState.dispatches + 1 } ∧
    (stepLoop unknownCfg "question".data [] initState).status = AgentState.running :=
  unknown_tool_recovers unknownCfg "question".data [] initState
    "Wikipedia".data "Leo DiCaprio".data rfl (by decide) (by decide) rfl

/-- A leading-whitespace decomposition: every list is its whitespace
prefix followed by its `skipWs`. -/
theorem skipWs_decomp (l : List Char) :
    ∃ w, allWs w = true ∧ l = w ++ skipWs l := by
  refine ⟨l.takeWhile isSpaceChar, ?_, (List.takeWhile_append_dropWhile _ _).symm⟩
  simp only [allWs, List.all_eq_true]
  intro c hc
  exact List.mem_takeWhile_imp hc

/-- Inversion of `expectCh`: success certifies the expected character
preceded only by whitespace. -/
theorem expectCh_decomp (c : Char) (l r : List Char) (h : expectCh c l = some r) :
    ∃ w, allWs w = true ∧ l = w ++ c :: r := by
  unfold expectCh at h
  split at h
  next c' rest heq =>
    by_cases hc : (c' == c) = true
    · rw [if_pos hc] at h
      have hr := Option.some.inj h
      obtain ⟨w, hw, hl⟩ := skipWs_decomp l
      have hcc : c' = c := by simpa using hc
      refine ⟨w, hw, ?_⟩
      rw [hl, heq, hcc, hr]
    · rw [if_neg hc] at h
      cases h
  next => cases h

/-- Inversion of `scanString`: success certifies a quote-free body
closed by a quote. -/
theorem scanString_decomp (l s r : List Char) (h : scanString l = some (s, r)) :
    l = s ++ '"' :: r ∧ '"' ∉ s := by
  induction l generalizing s r with
  | nil => cases h
  | cons c cs ih =>
    rw [scanString] at h
    by_cases hc : (c == '"') = true
    · rw [if_pos hc] at h
      have h' := Option.some.inj h
      have hs : s = [] := (congrArg Prod.fst h').symm
      have hr : r = cs := (congrArg Prod.snd h').symm
      subst hs
      subst hr
      have hcq : c = '"' := by simpa using hc
      constructor
      · rw [hcq]
        rfl
      · simp
    · rw [if_neg hc] at h
      cases hsc : scanString cs with
      | none => rw [hsc] at h; cases h
      | some p =>
        rw [hsc, Option.map_some'] at h
        have h' := Option.some.inj h
        have hs : s = c :: p.1 := (congrArg Prod.fst h').symm
        have hr : r = p.2 := (congrArg Prod.snd h').symm
        subst hs
        subst hr
        obtain ⟨hcs, hns⟩ := ih p.1 p.2 (by rw [hsc])
        constructor
        · rw [List.cons_append, ← hcs]
        · intro hm
          rcases List.mem_cons.mp hm with h1 | h1
          · simp only [beq_iff_eq] at hc
            exact hc h1.symm
          · exact hns h1

/-- Inversion of `parseStrLit`: success certifies a whitespace-prefixed,
quote-delimited, quote-free string literal. -/
theorem parseStrLit_decomp (l s r : List Char) (h : parseStrLit l = some (s, r)) :
    ∃ w, allWs w = true ∧ l = w ++ '"' :: (s ++ '"' :: r) ∧ '"' ∉ s := by
  unfold parseStrLit at h
  split at h
  next rest heq =>
    obtain ⟨hsr, hns⟩ := scanString_decomp rest s r h
    obtain ⟨w, hw, hl⟩ := skipWs_decomp l
    refine ⟨w, hw, ?_, hns⟩
    rw [hl, heq, hsr]
  next => cases h

/-- The shape a successful JSON parse certifies about its input: a
single action object, whitespace allowed between tokens, with quote-free
string contents, whose fields determine the parsed decision. -/
def jsonShaped (raw : List Char) (d : Decision) : Prop :=
  ∃ w1 w2 w3 w4 w5 w6 w7 w8 w9 w10 a x,
    allWs w1 = true ∧ allWs w2 = true ∧ allWs w3 = true ∧ allWs w4 = true ∧
    allWs w5 = true ∧ allWs w6 = true ∧ allWs w7 = true ∧ allWs w8 = true ∧
    allWs w9 = true ∧ allWs w10 = true ∧ '"' ∉ a ∧ '"' ∉ x ∧
    raw = w1 ++ '{' :: (w2 ++ '"' :: (actionKey ++ '"' :: (w3 ++ ':' ::
      (w4 ++ '"' :: (a ++ '"' :: (w5 ++ ',' :: (w6 ++ '"' ::
      (actionInputKey ++ '"' :: (w7 ++ ':' :: (w8 ++ '"' ::
      (x ++ '"' :: (w9 ++ '}' :: w10)))))))))))) ∧
    d = decisionOf a x

/-- Inversion of `jsonBody`: a produced decision certifies a well-formed
action object. -/
theorem jsonBody_decomp (raw : List Char) (d : Decision) (h : jsonBody raw = some d) :
    jsonShaped raw d := by
  unfold jsonBody at h
  rw [Option.bind_eq_some] at h
  obtain ⟨r1, h1, h⟩ := h
  rw [Option.bind_eq_some] at h
  obtain ⟨q1, hq1, h⟩ := h
  by_cases hk1 : q1.1 = actionKey
  case neg => rw [if_neg hk1] at h; cases h
  rw [if_pos hk1] at h
  rw [Option.bind_eq_some] at h
  obtain ⟨r3, h3, h⟩ := h
  rw [Option.bind_eq_some] at h
  obtain ⟨q2, hq2, h⟩ := h
  rw [Option.bind_eq_some] at h
  obtain ⟨r5, h5, h⟩ := h
  rw [Option.bind_eq_some] at h
  obtain ⟨q3, hq3, h⟩ := h
  by_cases hk2 : q3.1 = actionInputKey
  case neg => rw [if_neg hk2] at h; cases h
  rw [if_pos hk2] at h
  rw [Option.bind_eq_some] at h
  obtain ⟨r7, h7, h⟩ := h
  rw [Option.bind_eq_some] at h
  obtain ⟨q4, hq4, h⟩ := h
  rw [Option.bind_eq_some] at h
  obtain ⟨r9, h9, h⟩ := h
  by_cases hend : skipWs r9 = []
  case neg => rw [if_neg hend] at h; cases h
  rw [if_pos hend] at h
  have hd : d = decisionOf q2.1 q4.1 := (Option.some.inj h).symm
  obtain ⟨w1, hw1, hraw⟩ := expectCh_decomp '{' raw r1 h1
  obtain ⟨w2, hw2, hr1, hq1s⟩ := parseStrLit_decomp r1 q1.1 q1.2 (by rw [hq1])
  obtain ⟨w3, hw3, hr2⟩ := expectCh_decomp ':' q1.2 r3 h3
  obtain ⟨w4, hw4, hr3, hq2s⟩ := parseStrLit_decomp r3 q2.1 q2.2 (by rw [hq2])
  obtain ⟨w5, hw5, hr4⟩ := expectCh_decomp ',' q2.2 r5 h5
  obtain ⟨w6, hw6, hr5, hq3s⟩ := parseStrLit_decomp r5 q3.1 q3.2 (by rw [hq3])
  obtain ⟨w7, hw7, hr6⟩ := expectCh_decomp ':' q3.2 r7 h7
  obtain ⟨w8, hw8, hr7, hq4s⟩ := parseStrLit_decomp r7 q4.1 q4.2 (by rw [hq4])
  obtain ⟨w9, hw9, hr8⟩ := expectCh_decomp '}' q4.2 r9 h9
  have hw10 : allWs r9 = true := by
    obtain ⟨w, hw, hl⟩ := skipWs_decomp r9
    rw [hend, List.append_nil] at hl
    rw [hl]
    exact hw
  refine ⟨w1, w2, w3, w4, w5, w6, w7, w8, w9, r9, q2.1, q4.1,
    hw1, hw2, hw3, hw4, hw5, hw6, hw7, hw8, hw9, hw10, hq2s, hq4s, ?_, hd⟩
  rw [hraw, hr1, hk1, hr2, hr3, hr4, hr5, hk2, hr6, hr7, hr8]

/-- C6: the parsers never guess.  For the free-text parser: an output
containing both a final-answer marker and an action marker is ambiguous
and fails with `ParseError`; an output containing neither also fails
with `ParseError`; and every successfully produced decision certifies
that exactly one of the two patterns matched.  For the JSON parser: a
produced decision certifies a well-formed action object, so malformed
JSON always fails with `ParseError` and never yields a decision. -/
theorem no_guess_on_unmatched (raw : List Char) :
    (hasMarker finalMarker raw = true → hasMarker actionMarker raw = true →
      ∃ e, parseText raw = .error e) ∧
    (hasMarker finalMarker raw = false → hasMarker actionMarker raw = false →
      ∃ e, parseText raw = .error e) ∧
    (∀ d, parseText raw = .ok d →
      (hasMarker finalMarker raw = true ∧ hasMarker actionMarker raw = false) ∨
      (hasMarker finalMarker raw = false ∧ hasMarker actionMarker raw = true)) ∧
    (∀ d, jsonParse raw = .ok d → jsonShaped raw d) := by
  refine ⟨?_, ?_, ?_, ?_⟩
  · intro hf ha
    obtain ⟨fa, hfa⟩ := Option.isSome_iff_exists.mp hf
    obtain ⟨act, hact⟩ := Option.isSome_iff_exists.mp ha
    exact ⟨.ambiguous, by simp only [parseText, hfa, hact]⟩
  · intro hf ha
    cases hfa : splitAtMarker finalMarker raw with
    | some fa => rw [hasMarker, hfa] at hf; exact absurd hf (by simp)
    | none =>
      cases hact : splitAtMarker actionMarker raw with
      | some act => rw [hasMarker, hact] at ha; exact absurd ha (by simp)
      | none => exact ⟨.noMatch, by simp only [parseText, hfa, hact]⟩
  · intro d hd
    cases hfa : splitAtMarker finalMarker raw with
    | some fa =>
      cases hact : splitAtMarker actionMarker raw with
      | some act =>
        simp only [parseText, hfa, hact] at hd
        exact Except.noConfusion hd
      | none =>
        left
        exact ⟨by rw [hasMarker, hfa]; rfl, by rw [hasMarker, hact]; rfl⟩
    | none =>
      cases hact : splitAtMarker actionMarker raw with
      | some act =>
        right
        exact ⟨by rw [hasMarker, hfa]; rfl, by rw [hasMarker, hact]; rfl⟩
      | none =>
        simp only [parseText, hfa, hact] at hd
        exact Except.noConfusion hd
  · intro d hd
    cases hb : jsonBody raw with
    | none =>
      simp only [jsonParse, hb] at hd
      exact Except.noConfusion hd
    | some d0 =>
      simp only [jsonParse, hb, Except.ok.injEq] at hd
      rw [← hd]
      exact jsonBody_decomp raw d0 hb

/-- Witness for C6: an output with both markers fails with a
`ParseError`. -/
theorem no_guess_on_unmatched_witness :
    ∃ e, parseText "Final Answer: done\nAction: Search\nAction Input: q".data =
      .error e :=
  (no_guess_on_unmatched "Final Answer: done\nAction: Search\nAction Input: q".data).1
    (by decide) (by decide)

/-- C8 (amended): when the raw model output contains a final-answer
marker and no action marker, the first final-answer marker wins: the
parser commits to `FinalAnswer` at the first occurrence — even when
further final-answer markers follow in the remaining text — and returns
the trimmed remainder after that first marker.  When an action marker is
also present, §4.2's ambiguity rule prevails instead: parse fails with
`ParseError` rather than parsing past the first marker and guessing. -/
theorem first_final_marker_wins (th x : List Char)
    (hclean : splitAtMarker finalMarker (th ++ finalMarker) = some [])
    (hnoact : splitAtMarker actionMarker (th ++ (finalMarker ++ x)) = none) :
    parseText (th ++ (finalMarker ++ x)) = .ok (.finalAnswer (trimChars x)) ∧
    (∀ raw : List Char, hasMarker finalMarker raw = true →
      hasMarker actionMarker raw = true → parseText raw = .error .ambiguous) := by
  constructor
  · have hfa := splitAtMarker_extend finalMarker th x hclean
    simp only [parseText, hfa, hnoact]
  · intro raw hf ha
    obtain ⟨fa, hfa⟩ := Option.isSome_iff_exists.mp hf
    obtain ⟨act, hact⟩ := Option.isSome_iff_exists.mp ha
    simp only [parseText, hfa, hact]

/-- Witness for the amended C8: the suffix after the first final-answer
marker contains a second final-answer marker, and the parser still
commits to the first one. -/
theorem first_final_marker_wins_witness :
    parseText ("Thought: done\n".data ++ (finalMarker ++ " A\nFinal Answer: B".data)) =
      .ok (.finalAnswer (trimChars " A\nFinal Answer: B".data)) :=
  (first_final_marker_wins "Thought: done\n".data " A\nFinal Answer: B".data
    (by decide) (by decide)).1

/-- A proposer that first asks for a tool call and then emits an output
holding both a final-answer marker and a subsequent action marker. -/
def dualProposer : Proposer := fun _ _ steps =>
  if steps.length = 0 then
    "Thought: look\nAction: Search\nAction Input: query one".data
  else
    "Final Answer: done\nAction: Search\nAction Input: query two".data

/-- The executor driven by `dualProposer`. -/
def dualCfg : AgentConfig :=
  { parse := parseText, tools := [searchTool], propose := dualProposer,
    maxIterations := 5 }

/-- Counterexample to C8 as stated: after one prior tool call in the
same run, the model output contains a final-answer marker followed by an
action marker, yet the parser does not stop at the first terminal marker
and produce `FinalAnswer` — it fails with the ambiguity `ParseError`,
and the controller aborts the run instead of finishing it. -/
theorem dual_marker_aborts_cex :
    parseText "Final Answer: done\nAction: Search\nAction Input: query two".data =
      .error .ambiguous ∧
    (run dualCfg "question".data []).dispatches = 1 ∧
    (run dualCfg "question".data []).status = .aborted ∧
    (run dualCfg "question".data []).status ≠ .finished := by
  exact ⟨by decide, by decide, by decide, by decide⟩

/-- A conversation turn: a run's input and output texts. -/
abbrev Turn := List Char × List Char

/-- Modelled from the spec: one `agent_executor.invoke` call of an
executor optionally constructed with a conversation memory
(`ConversationBufferMemory` in the notebooks; its code is not part of
this repository).  The run reads the memory as its chat history; after
the run completes, the input/output turn is appended to the memory
(spec §6: `append(turn)`, `read()`; §9: memory modelled as an explicitly
passed, caller-owned sequence).  An executor without memory supplies an
empty chat history and records nothing. -/
def invoke (cfg : AgentConfig) (mem : Option (List Turn)) (input : List Char) :
    LoopState × Option (List Turn) :=
  let r := run cfg input (mem.getD [])
  (r, mem.map (fun m => m ++ [(input, r.output)]))

/-- The introduction turn of the conversational notebook. -/
def bobIntro : List Char := "hi, i am bob".data

/-- The greeting the first run answers with. -/
def bobGreeting : List Char := "Hi Bob, nice to meet you!".data

/-- The name question of the conversational notebook. -/
def nameQuestion : List Char := "whats my name?".data

/-- The answer the memory-backed executor gives to the name question. -/
def bobAnswerText : List Char := "Your name is Bob.".data

/-- The answer a memoryless executor gives to the name question. -/
def dontKnowText : List Char := "I do not know your name.".data

/-- A proposer standing in for the conversational model of the notebook:
it answers the name question from the chat history when the introduction
turn is present there, and admits ignorance otherwise. -/
def bobProposer : Proposer := fun input hist _ =>
  if hist.any (fun t => t.1 == bobIntro) then
    "Final Answer: Your name is Bob.".data
  else if input == bobIntro then
    "Final Answer: Hi Bob, nice to meet you!".data
  else
    "Final Answer: I do not know your name.".data

/-- The conversational executor of the notebook. -/
def bobCfg : AgentConfig :=
  { parse := parseText, tools := [], propose := bobProposer, maxIterations := 5 }

/-- C10: an executor constructed with a conversation memory appends the
input/output turn of each completed run to that memory and supplies the
accumulated turns as chat history to the subsequent run on the same
executor, while an executor without memory always runs with an empty
chat history and records nothing; consequently, after "hi, i am bob" the
memory-backed executor answers "whats my name?" with "Your name is
Bob.", and the memoryless executor does not know the name. -/
theorem memory_threads_history (cfg : AgentConfig) (m0 : List Turn)
    (i1 i2 : List Char) :
    (invoke cfg (some m0) i1).2 =
      some (m0 ++ [(i1, (run cfg i1 m0).output)]) ∧
    (invoke cfg ((invoke cfg (some m0) i1).2) i2).1 =
      run cfg i2 (m0 ++ [(i1, (run cfg i1 m0).output)]) ∧
    (invoke cfg none i1).1 = run cfg i1 [] ∧
    (invoke cfg none i1).2 = none ∧
    (invoke bobCfg (some []) bobIntro).2 = some [(bobIntro, bobGreeting)] ∧
    (invoke bobCfg ((invoke bobCfg (some []) bobIntro).2) nameQuestion).1.output =
      bobAnswerText ∧
    (invoke bobCfg none nameQuestion).1.output = dontKnowText := by
  refine ⟨rfl, rfl, rfl, rfl, ?_, ?_, ?_⟩ <;> decide

/-- A finished run state, used to instantiate the terminal-state
absorption theorem. -/
def doneState : LoopState :=
  { steps := [finalStep "done".data], iterations := 0, modelCalls := 1,
    dispatches := 0, status := .finished, output := "done".data }

/-- Witness for C7: iterating the loop on a finished state changes
nothing. -/
theorem terminal_states_absorb_witness :
    stepLoop unknownCfg "question".data [] doneState = doneState ∧
      runAux unknownCfg "question".data [] 7 doneState = doneState :=
  ⟨(terminal_states_absorb unknownCfg "question".data [] doneState (by decide)).1,
   (terminal_states_absorb unknownCfg "question".data [] doneState (by decide)).2 7⟩
